import Mathlib

/-!
Verification of the accumulator (Merkle Mountain Range) engine of
`fendermint/actors/accumulator/src/shared.rs`.

The Rust code is shallowly embedded as follows.

* Content addressing is ideal: a `Cid` is identified with the content it
  addresses (the CID of a serialized leaf value `v` is `Cid.leaf v`, the CID of
  a pair block `[l, r]` is `Cid.node l r`, and the CID of a flushed AMT root
  block with entry list `es` is the `Cid.amtNil`/`Cid.amtCons` encoding of
  `es`).  This models the Blake2b-256 / DAG-CBOR addressing of the source: the
  derived reference is a deterministic, injective function of the canonical
  encoding of the block, and `Cid::default()` (`Cid.empty`) differs from every
  derived reference.
* The `Blockstore` is an in-memory content-addressed store, modelled as the
  list of blocks (CIDs, under the identification above) that have been put.
  `put` always succeeds (as for `MemoryBlockstore`); `get` succeeds exactly
  when the block is present, and decoding a block at the wrong shape fails.
* The `Amt<Cid, BS>` of peaks is modelled by its entry list, an association
  list from indices to CIDs kept in increasing index order, with the
  `fvm_ipld_amt` semantics used by the source: `count` is the number of stored
  values, `set` inserts or replaces, `delete` removes and returns the removed
  value (`none` when no value is stored at the index), `get` looks up, and
  `flush` persists the entries as a single content-addressed block.
* Machine integers: the relevant `u64`/`u32` quantities are modelled as `Nat`.
  No arithmetic in the modelled paths can overflow a `u64` for in-range
  inputs; where a claim depends on the 64-bit width (`leading_zeros`) the
  theorems carry an explicit `< 2 ^ 64` bound.  `u64`/`u32` subtractions that
  would underflow (and hence panic or wrap in Rust, aborting the actor call)
  occur only on failing paths and are modelled by the truncating `Nat`
  subtraction, which fails identically in context.
* Fallible computations return `Option`; `none` is an error (`anyhow::Error`).

All recursive definitions are structural (fuel-based where the Rust uses
division-based recursion), so every definition evaluates inside the kernel.
-/

/-! ### Bit-level helpers

The source uses `u64::count_ones` (popcount), `(!x).trailing_zeros()`
(the number of trailing one bits of `x`), and `u64::BITS - x.leading_zeros()`
(the bit length of `x`).  These are modelled by fuel-based structural
recursions on `Nat`; a fuel of `n` always suffices for input `n`.
-/

def popCountAux : Nat → Nat → Nat
  | 0, _ => 0
  | fuel + 1, n => if n = 0 then 0 else n % 2 + popCountAux fuel (n / 2)

/-- Population count (number of one bits): models `u64::count_ones`. -/
def popCount (n : Nat) : Nat := popCountAux n n

def trailingOnesAux : Nat → Nat → Nat
  | 0, _ => 0
  | fuel + 1, n => if n % 2 = 1 then trailingOnesAux fuel (n / 2) + 1 else 0

/-- Number of trailing one bits: models `(!x).trailing_zeros()` on `u64`
(the two agree for every `x < 2 ^ 64`, the full `u64` range). -/
def trailingOnes (n : Nat) : Nat := trailingOnesAux n n

def bitLenAux : Nat → Nat → Nat
  | 0, _ => 0
  | fuel + 1, n => if n = 0 then 0 else bitLenAux fuel (n / 2) + 1

/-- Bit length of `n` (`0` for `0`, otherwise `log2 n + 1`): models
`u64::BITS - n.leading_zeros()`. -/
def bitLen (n : Nat) : Nat := bitLenAux n n




/-! ### Content identifiers and the content store -/

/-- Ideal content identifiers over leaf values of type `a`.  A CID is
identified with the content of the block it addresses:

* `empty` is `Cid::default()` (the null commitment returned for an empty
  accumulator);
* `leaf v` is the CID obtained by `put_cbor` of a serialized leaf value `v`;
* `node l r` is the CID of a pair block `[l, r]` (both in `hash_pair` and in
  `hash_and_put_pair`, which address the same canonical encoding);
* `amtNil` / `amtCons i c rest` encode the root block of a flushed peaks AMT
  as its list of `(index, cid)` entries.

Injectivity of the constructors models collision-free hashing; distinct
constructors model the distinct canonical encodings of the block kinds. -/
inductive Cid (a : Type) where
  | empty : Cid a
  | leaf (v : a) : Cid a
  | node (l r : Cid a) : Cid a
  | amtNil : Cid a
  | amtCons (i : Nat) (c : Cid a) (rest : Cid a) : Cid a
deriving DecidableEq, Repr

/-- Encode an AMT entry list as its root block CID. -/
def encodeEntries {a : Type} : List (Nat × Cid a) → Cid a
  | [] => Cid.amtNil
  | (i, c) :: rest => Cid.amtCons i c (encodeEntries rest)

/-- Decode an AMT root block back into its entry list (fails on a block of a
different shape). -/
def decodeEntries {a : Type} : Cid a → Option (List (Nat × Cid a))
  | Cid.amtNil => some []
  | Cid.amtCons i c rest => (decodeEntries rest).map (fun es => (i, c) :: es)
  | _ => none


/-- The content store: the set of blocks that have been put, as a list of
their CIDs (a CID determines its block content under ideal content
addressing).  Models an in-memory `Blockstore`: puts always succeed, gets
succeed exactly for present blocks. -/
structure Store (a : Type) where
  blocks : List (Cid a)
deriving DecidableEq, Repr

/-- Presence of a block in the store. -/
def Store.has {a : Type} [DecidableEq a] (s : Store a) (c : Cid a) : Prop :=
  c ∈ s.blocks

instance {a : Type} [DecidableEq a] (s : Store a) (c : Cid a) :
    Decidable (s.has c) := by
  unfold Store.has
  infer_instance

/-- `put_cbor` of a serialized leaf value: returns the derived CID and the
extended store. -/
def Store.putLeaf {a : Type} (s : Store a) (v : a) : Cid a × Store a :=
  (Cid.leaf v, ⟨Cid.leaf v :: s.blocks⟩)

/-- `put_cbor` of a pair block `[l, r]`. -/
def Store.putPair {a : Type} (s : Store a) (l r : Cid a) : Cid a × Store a :=
  (Cid.node l r, ⟨Cid.node l r :: s.blocks⟩)

/-- Persisting a flushed AMT root block holding the entry list `es`. -/
def Store.putAmt {a : Type} (s : Store a) (es : List (Nat × Cid a)) :
    Cid a × Store a :=
  (encodeEntries es, ⟨encodeEntries es :: s.blocks⟩)

/-- `get_cbor::<S>`: load a block and decode it as a leaf value.  `none`
covers both an absent block and a block of the wrong shape, the two failure
modes the source turns into errors. -/
def Store.getLeaf {a : Type} [DecidableEq a] (s : Store a) (c : Cid a) :
    Option a :=
  if s.has c then
    match c with
    | Cid.leaf v => some v
    | _ => none
  else none

/-- `get_cbor::<[Cid; 2]>`: load a block and decode it as a pair node. -/
def Store.getPair {a : Type} [DecidableEq a] (s : Store a) (c : Cid a) :
    Option (Cid a × Cid a) :=
  if s.has c then
    match c with
    | Cid.node l r => some (l, r)
    | _ => none
  else none

/-- `Amt::load`: load a block and decode it as an AMT root (entry list). -/
def Store.getAmt {a : Type} [DecidableEq a] (s : Store a) (c : Cid a) :
    Option (List (Nat × Cid a)) :=
  if s.has c then decodeEntries c else none

/-! ### The peaks AMT

`fvm_ipld_amt::Amt<Cid, BS>` as used by the source, modelled by its entry
list (index-ordered association list).  `count` is the number of stored
values, matching `Amt::count`. -/

/-- Insert or replace the entry at index `i`, keeping entries ordered by
index. -/
def insertEntry {a : Type} : List (Nat × Cid a) → Nat → Cid a → List (Nat × Cid a)
  | [], i, c => [(i, c)]
  | (j, d) :: rest, i, c =>
    if i < j then (i, c) :: (j, d) :: rest
    else if i = j then (i, c) :: rest
    else (j, d) :: insertEntry rest i c

/-- Remove the entry at index `i`, returning the removed value (`none` when
no value is stored there) and the remaining entries. -/
def deleteEntry {a : Type} : List (Nat × Cid a) → Nat → Option (Cid a) × List (Nat × Cid a)
  | [], _ => (none, [])
  | (j, d) :: rest, i =>
    if i = j then (some d, rest)
    else
      let p := deleteEntry rest i
      (p.1, (j, d) :: p.2)

/-- Look up the entry at index `i`. -/
def lookupEntry {a : Type} : List (Nat × Cid a) → Nat → Option (Cid a)
  | [], _ => none
  | (j, d) :: rest, i => if i = j then some d else lookupEntry rest i

/-- The in-memory peaks AMT. -/
structure Amt (a : Type) where
  entries : List (Nat × Cid a)
deriving DecidableEq, Repr

/-- `Amt::count`: number of stored values. -/
def Amt.count {a : Type} (m : Amt a) : Nat := m.entries.length

/-- `Amt::get`. -/
def Amt.get {a : Type} (m : Amt a) (i : Nat) : Option (Cid a) :=
  lookupEntry m.entries i

/-- `Amt::set`. -/
def Amt.set {a : Type} (m : Amt a) (i : Nat) (c : Cid a) : Amt a :=
  ⟨insertEntry m.entries i c⟩

/-- `Amt::delete`. -/
def Amt.delete {a : Type} (m : Amt a) (i : Nat) : Option (Cid a) × Amt a :=
  let p := deleteEntry m.entries i
  (p.1, ⟨p.2⟩)

/-- `Amt::flush`: persist the AMT as a single content-addressed block and
return its root CID together with the extended store. -/
def Amt.flush {a : Type} (m : Amt a) (s : Store a) : Cid a × Store a :=
  s.putAmt m.entries

/-! ### The pair hasher (§4.1, `hash_pair` / `hash_and_put_pair`) -/

/-- `hash_pair(left, right)`: the CID of the pair block `[left, right]`,
computed without touching the store; fails when either side is absent.
The Blake2b-256 digest of the DAG-CBOR encoding of `[left, right]` is
modelled by the ideal content address `Cid.node left right`. -/
def hash_pair {a : Type} (left right : Option (Cid a)) : Option (Cid a) :=
  match left, right with
  | some l, some r => some (Cid.node l r)
  | _, _ => none

/-- `hash_and_put_pair(store, left, right)`: `put_cbor(&[left, right])`, which
derives the same CID (same encoding, same hash code) and also writes the pair
block to the store; fails when either side is absent. -/
def hash_and_put_pair {a : Type} (store : Store a) (left right : Option (Cid a)) :
    Option (Cid a × Store a) :=
  match left, right with
  | some l, some r => some (store.putPair l r)
  | _, _ => none

/-! ### Push / append (§4.2, the free function `push`) -/

/-- The merge loop of `push`: `k` is the remaining value of the loop counter
`new_peaks`.  Each iteration pops the entry at index `count - 1` twice (first
popped is `right`, second is `left`), persists their pair hash, and sets it
at the new `count`.  The store is returned in every case: block puts made by
completed iterations survive a later failure, as they do in the Rust
blockstore (errors do not roll back writes). -/
def pushLoop {a : Type} (store : Store a) (m : Amt a) :
    Nat → Store a × Option (Amt a)
  | 0 => (store, some m)
  | k + 1 =>
    let r := m.delete (m.count - 1)
    let right := r.1
    let m1 := r.2
    let l := m1.delete (m1.count - 1)
    let left := l.1
    let m2 := l.2
    match hash_and_put_pair store left right with
    | none => (store, none)
    | some (c, store2) => pushLoop store2 (m2.set m2.count c) k

/-- The free function `push(store, leaf_count, peaks, obj)` (named `pushFn`
here only because the method `State.push` below shadows the name inside its
own definition): persist the new leaf, append it to the peaks, run
`(!leaf_count).trailing_zeros()` merge iterations, and flush the peaks AMT,
returning the flushed handle and the in-memory AMT (which the Rust caller
keeps as `&mut`).  The store is returned in every case: the leaf put and any
completed merge puts survive a later failure, as in the Rust blockstore. -/
def pushFn {a : Type} (store : Store a) (leaf_count : Nat) (m : Amt a) (obj : a) :
    Store a × Option (Cid a × Amt a) :=
  let p := store.putLeaf obj
  let m1 := m.set m.count p.1
  match pushLoop p.2 m1 (trailingOnes leaf_count) with
  | (store2, none) => (store2, none)
  | (store2, some m2) =>
    let f := m2.flush store2
    (f.2, some (f.1, m2))

/-! ### Root bagging (§4.3, `bag_peaks`) -/

/-- The backward combining loop of `bag_peaks`: `for i in 2..peaks_count`,
modelled with the remaining iteration count `peaks_count - i` as fuel.  The
store is passed along unchanged at every step (the loop only reads). -/
def bagLoopAux {a : Type} (m : Amt a) (n : Nat) :
    Nat → Nat → Cid a → Store a → Option (Cid a) × Store a
  | 0, _, root, store => (some root, store)
  | j + 1, i, root, store =>
    match hash_pair (m.get (n - 1 - i)) (some root) with
    | none => (none, store)
    | some root2 => bagLoopAux m n j (i + 1) root2 store

/-- `bag_peaks(peaks)`: the root commitment of the peaks list.  No peaks give
`Cid::default()`; one peak is promoted unchanged (`get(0)?.unwrap()`, the
panic on a missing index 0 modelled as a failure); otherwise the peaks are
combined pairwise walking backward.  The store is threaded through explicitly
to express that this query never writes. -/
def bag_peaks {a : Type} (store : Store a) (m : Amt a) : Option (Cid a) × Store a :=
  if m.count = 0 then (some Cid.empty, store)
  else if m.count = 1 then
    match m.get 0 with
    | some c => (some c, store)
    | none => (none, store)
  else
    match hash_pair (m.get (m.count - 2)) (m.get (m.count - 1)) with
    | none => (none, store)
    | some root => bagLoopAux m m.count (m.count - 2) 2 root store

/-! ### Path resolution (§4.4, `path_for_eigen_root`) -/

/-- `path_for_eigen_root(leaf_index, leaf_count)`: the walk path inside the
eigentree holding `leaf_index` and the peak index of that eigentree.
`u64::BITS - diff.leading_zeros()` is `bitLen diff` for every `u64` value. -/
def path_for_eigen_root (leaf_index leaf_count : Nat) : Option (Nat × Nat) :=
  if leaf_index ≥ leaf_count then none
  else
    let diff := leaf_index ^^^ leaf_count
    let leading_zeros := 64 - bitLen diff
    let eigentree_height := 64 - leading_zeros - 1
    let merge_height := 1 <<< eigentree_height
    let bitmask := merge_height - 1
    let eigentree_count := popCount leaf_count
    let offset := popCount (leaf_count &&& bitmask)
    let eigen_index := eigentree_count - offset - 1
    let local_offset := leaf_index &&& bitmask
    let local_path := local_offset + merge_height
    some (local_path, eigen_index)

/-! ### Historical leaf lookup (§4.5, `get_at`) -/

/-- The interior descent of `get_at`: `for i in 1..(significant_bits - 1)`,
reading bit `significant_bits - i - 1` of `path` down to bit `1`.  The fuel
argument is the current shift amount, so `walkDown store path pr s` handles
shifts `s, s - 1, ..., 1` and stops before the final bit. -/
def walkDown {a : Type} [DecidableEq a] (store : Store a) (path : Nat) :
    Nat → Cid a × Cid a → Option (Cid a × Cid a)
  | 0, pr => some pr
  | s + 1, pr =>
    let bit := (path >>> (s + 1)) &&& 1
    match store.getPair (if bit = 1 then pr.2 else pr.1) with
    | none => none
    | some pr2 => walkDown store path s pr2

/-- `get_at(store, leaf_index, leaf_count, peaks)`: resolve the path, load the
peak, and walk down the eigentree; every missing or malformed block is an
error (`none`). -/
def get_at {a : Type} [DecidableEq a] (store : Store a)
    (leaf_index leaf_count : Nat) (peaks : Amt a) : Option a :=
  match path_for_eigen_root leaf_index leaf_count with
  | none => none
  | some (path, eigen_index) =>
    match peaks.get eigen_index with
    | none => none
    | some cid =>
      if path = 1 then store.getLeaf cid
      else
        match store.getPair cid with
        | none => none
        | some pair =>
          let leading_zeros := 64 - bitLen path
          let significant_bits := 64 - leading_zeros
          match walkDown store path (significant_bits - 2) pair with
          | none => none
          | some pair2 =>
            let bit := path &&& 1
            store.getLeaf (if bit = 1 then pair2.2 else pair2.1)

/-! ### Accumulator state (`State` and its methods)

The machine metadata fields `owner` and `write_access` are carried by the
Rust struct but never read or written by the accumulator logic; they are
omitted from the embedding. -/

/-- `PushReturn { root, index }`. -/
structure PushReturn (a : Type) where
  root : Cid a
  index : Nat
deriving DecidableEq, Repr

/-- Accumulator state: the flushed peaks handle and the number of leaves. -/
structure State (a : Type) where
  peaks : Cid a
  leaf_count : Nat
deriving DecidableEq, Repr

/-- `State::new`: flush an empty AMT and store its handle. -/
def State.new {a : Type} (store : Store a) : State a × Store a :=
  let p := Amt.flush (a := a) ⟨[]⟩ store
  ({ peaks := p.1, leaf_count := 0 }, p.2)

/-- `State::peak_count`: `leaf_count.count_ones()`. -/
def State.peak_count {a : Type} (st : State a) : Nat := popCount st.leaf_count

/-- `State::push`: load the peaks AMT from the handle, run `push`, commit the
new handle and increment `leaf_count`, then bag the in-memory peaks for the
returned root.  Mirroring the Rust `&mut self` flow, the returned triple
always carries the state and store as they are when the method returns: the
two state mutations happen after `push` succeeds and before `bag_peaks`
runs, and store writes made before a failure survive it (only the initial
`Amt::load` failure happens before any write). -/
def State.push {a : Type} [DecidableEq a] (st : State a) (store : Store a)
    (obj : a) : Option (PushReturn a) × State a × Store a :=
  match store.getAmt st.peaks with
  | none => (none, st, store)
  | some entries =>
    match pushFn store st.leaf_count ⟨entries⟩ obj with
    | (store2, none) => (none, st, store2)
    | (store2, some (handle, m2)) =>
      let st2 : State a := { peaks := handle, leaf_count := st.leaf_count + 1 }
      match bag_peaks store2 m2 with
      | (none, store3) => (none, st2, store3)
      | (some root, store3) =>
        (some { root := root, index := st2.leaf_count - 1 }, st2, store3)

/-- `State::get_leaf_at`: load the peaks AMT (propagating a load failure with
`?`), then run `get_at` and collapse any of its failures into `none`
(absent).  The outer `Option` is the `anyhow::Result`, the inner one the
`Option<S>` of the source. -/
def State.get_leaf_at {a : Type} [DecidableEq a] (st : State a)
    (store : Store a) (index : Nat) : Option (Option a) :=
  match store.getAmt st.peaks with
  | none => none
  | some entries => some (get_at store index st.leaf_count ⟨entries⟩)

/-! ### Push sequences from a fresh accumulator -/

/-- Push the values of `vs` in order, failing if any push fails. -/
def pushAll {a : Type} [DecidableEq a] (st : State a) (store : Store a) :
    List a → Option (State a × Store a)
  | [] => some (st, store)
  | v :: vs =>
    match State.push st store v with
    | (some _, st2, store2) => pushAll st2 store2 vs
    | (none, _, _) => none

/-- Push the values of `vs` in order into a freshly constructed accumulator
over an empty store. -/
def pushSeq {a : Type} [DecidableEq a] (vs : List a) : Option (State a × Store a) :=
  let p := State.new (a := a) ⟨[]⟩
  pushAll p.1 p.2 vs

/-- `get_leaf_at i` on the accumulator obtained by pushing `vs` in order into
a fresh accumulator (`none` when some push failed or `get_leaf_at` itself
raised). -/
def runLeafAt {a : Type} [DecidableEq a] (vs : List a) (i : Nat) : Option (Option a) :=
  match pushSeq vs with
  | none => none
  | some (st, store) => st.get_leaf_at store i

/-! ### Spec-side definitions

The following definitions are written from the words of the specification
(and of the claims derived from it), not from the source; the theorems below
compare them with the source-translated definitions above. -/

/-- The entry list of a dense peaks AMT holding the ordered peak list `ps` at
consecutive indices starting from `k` (the committed representation of the
Peaks List as an ordered sequence). -/
def denseFrom {a : Type} (k : Nat) : List (Cid a) → List (Nat × Cid a)
  | [] => []
  | c :: cs => (k, c) :: denseFrom (k + 1) cs

/-- Spec-side merge loop (§4.2 step 3, claim C2): repeat `k` times: pop the
last two entries off the Peaks List (the later-added entry is `right`, the
earlier-added one is `left`), persist their pair hash, and append it as the
new last entry.  Fails when fewer than two entries remain; like the source
loop it returns the store in every case, keeping the persisted pair blocks
of completed iterations. -/
def mergeL {a : Type} : Nat → Store a → List (Cid a) → Store a × Option (List (Cid a))
  | 0, store, ps => (store, some ps)
  | k + 1, store, ps =>
    match ps.getLast?, ps.dropLast.getLast? with
    | some right, some left =>
      let p := store.putPair left right
      mergeL k p.2 (ps.dropLast.dropLast ++ [p.1])
    | _, _ => (store, none)

/-- Spec-side bagging loop (§4.3, claim C4): for `i` from `2` to `n - 1`,
`acc = compute(peaks[n - 1 - i], acc)`, with the remaining iteration count as
fuel.  All indices are in range, so `getD` never falls back to its default. -/
def claimBagLoop {a : Type} (ps : List (Cid a)) (n : Nat) :
    Nat → Nat → Cid a → Cid a
  | 0, _, acc => acc
  | j + 1, i, acc =>
    claimBagLoop ps n j (i + 1) (Cid.node (ps.getD (n - 1 - i) Cid.empty) acc)

/-- Spec-side root bagging (§4.3, claim C4) over the ordered Peaks List:
zero peaks give the null commitment, one peak is returned unchanged, and at
least two peaks are folded right-to-left starting from
`acc = compute(peaks[n - 2], peaks[n - 1])`. -/
def claimBag {a : Type} : List (Cid a) → Cid a
  | [] => Cid.empty
  | [c] => c
  | ps =>
    claimBagLoop ps ps.length (ps.length - 2) 2
      (Cid.node (ps.getD (ps.length - 2) Cid.empty) (ps.getD (ps.length - 1) Cid.empty))

/-- Spec-side push (§4.2, claim C2), acting on the dense Peaks List: persist
and append the leaf, run the `trailingOnes leaf_count` merge iterations of
`mergeL`, and return the bagged root of the resulting Peaks List together
with the assigned index `new leaf_count - 1`, plus the resulting list; the
store after the performed puts is returned in every case. -/
def pushSpecC2 {a : Type} (store : Store a) (lc : Nat) (ps : List (Cid a))
    (v : a) : Store a × Option (PushReturn a × List (Cid a)) :=
  let p := store.putLeaf v
  let q := mergeL (trailingOnes lc) p.2 (ps ++ [p.1])
  (q.1, q.2.map (fun rs => ({ root := claimBag rs, index := lc + 1 - 1 }, rs)))

/-! ### Value-relabelling maps

`Cid.map f` renames every leaf value through `f`; the accumulator never
inspects leaf values, so a whole run commutes with such a relabelling.  This
is used to transport the bounded exhaustive check of claim C1 from the
canonical values `0, ..., n - 1` to arbitrary pushed values. -/

def Cid.map {a b : Type} (f : a → b) : Cid a → Cid b
  | Cid.empty => Cid.empty
  | Cid.leaf v => Cid.leaf (f v)
  | Cid.node l r => Cid.node (l.map f) (r.map f)
  | Cid.amtNil => Cid.amtNil
  | Cid.amtCons i c rest => Cid.amtCons i (c.map f) (rest.map f)

def mapEntries {a b : Type} (f : a → b) (es : List (Nat × Cid a)) :
    List (Nat × Cid b) :=
  es.map (fun e => (e.1, e.2.map f))

def Store.map {a b : Type} (f : a → b) (s : Store a) : Store b :=
  ⟨s.blocks.map (Cid.map f)⟩

def Amt.map {a b : Type} (f : a → b) (m : Amt a) : Amt b :=
  ⟨mapEntries f m.entries⟩

def State.map {a b : Type} (f : a → b) (st : State a) : State b :=
  { peaks := st.peaks.map f, leaf_count := st.leaf_count }
theorem popCountAux_congr : ∀ n fuel fuel2, n ≤ fuel → n ≤ fuel2 →
    popCountAux fuel n = popCountAux fuel2 n := by
  intro n
  induction n using Nat.strong_induction_on with
  | _ n ih =>
    intro fuel fuel2 h1 h2
    match fuel, fuel2 with
    | 0, f2 =>
      interval_cases n
      cases f2 <;> simp [popCountAux]
    | f1 + 1, 0 =>
      interval_cases n
      simp [popCountAux]
    | f1 + 1, f2 + 1 =>
      by_cases hn : n = 0
      · simp [popCountAux, hn]
      · have hlt : n / 2 < n := Nat.div_lt_self (Nat.pos_of_ne_zero hn) (by omega)
        simp only [popCountAux, hn, if_false]
        rw [ih (n / 2) hlt f1 f2 (by omega) (by omega)]

theorem popCount_zero : popCount 0 = 0 := rfl

theorem popCount_eq (n : Nat) (h : n ≠ 0) : popCount n = n % 2 + popCount (n / 2) := by
  have h1 : 1 ≤ n := Nat.pos_of_ne_zero h
  obtain ⟨m, rfl⟩ : ∃ m, n = m + 1 := ⟨n - 1, by omega⟩
  show popCountAux (m + 1) (m + 1) = (m + 1) % 2 + popCount ((m + 1) / 2)
  simp only [popCountAux, h, if_false]
  congr 1
  exact popCountAux_congr _ _ _ (by omega) (by omega)

theorem trailingOnesAux_congr : ∀ n fuel fuel2, n ≤ fuel → n ≤ fuel2 →
    trailingOnesAux fuel n = trailingOnesAux fuel2 n := by
  intro n
  induction n using Nat.strong_induction_on with
  | _ n ih =>
    intro fuel fuel2 h1 h2
    match fuel, fuel2 with
    | 0, f2 =>
      interval_cases n
      cases f2 <;> simp [trailingOnesAux]
    | f1 + 1, 0 =>
      interval_cases n
      simp [trailingOnesAux]
    | f1 + 1, f2 + 1 =>
      by_cases hn : n % 2 = 1
      · have hn0 : n ≠ 0 := by omega
        have hlt : n / 2 < n := Nat.div_lt_self (Nat.pos_of_ne_zero hn0) (by omega)
        simp only [trailingOnesAux, hn, if_true]
        rw [ih (n / 2) hlt f1 f2 (by omega) (by omega)]
      · simp [trailingOnesAux, hn]

theorem trailingOnes_even (n : Nat) (h : n % 2 = 0) : trailingOnes n = 0 := by
  cases n with
  | zero => rfl
  | succ m =>
    show trailingOnesAux (m + 1) (m + 1) = 0
    simp [trailingOnesAux, h]

theorem trailingOnes_odd (n : Nat) (h : n % 2 = 1) : trailingOnes n = trailingOnes (n / 2) + 1 := by
  have hn0 : n ≠ 0 := by omega
  obtain ⟨m, rfl⟩ : ∃ m, n = m + 1 := ⟨n - 1, by omega⟩
  show trailingOnesAux (m + 1) (m + 1) = trailingOnes ((m + 1) / 2) + 1
  simp only [trailingOnesAux, h, if_true]
  congr 1
  exact trailingOnesAux_congr _ _ _ (by omega) (by omega)

theorem bitLenAux_congr : ∀ n fuel fuel2, n ≤ fuel → n ≤ fuel2 →
    bitLenAux fuel n = bitLenAux fuel2 n := by
  intro n
  induction n using Nat.strong_induction_on with
  | _ n ih =>
    intro fuel fuel2 h1 h2
    match fuel, fuel2 with
    | 0, f2 =>
      interval_cases n
      cases f2 <;> simp [bitLenAux]
    | f1 + 1, 0 =>
      interval_cases n
      simp [bitLenAux]
    | f1 + 1, f2 + 1 =>
      by_cases hn : n = 0
      · simp [bitLenAux, hn]
      · have hlt : n / 2 < n := Nat.div_lt_self (Nat.pos_of_ne_zero hn) (by omega)
        simp only [bitLenAux, hn, if_false]
        rw [ih (n / 2) hlt f1 f2 (by omega) (by omega)]

theorem bitLen_zero : bitLen 0 = 0 := rfl

theorem bitLen_eq (n : Nat) (h : n ≠ 0) : bitLen n = bitLen (n / 2) + 1 := by
  obtain ⟨m, rfl⟩ : ∃ m, n = m + 1 := ⟨n - 1, by omega⟩
  show bitLenAux (m + 1) (m + 1) = bitLen ((m + 1) / 2) + 1
  simp only [bitLenAux, h, if_false]
  congr 1
  exact bitLenAux_congr _ _ _ (by omega) (by omega)

/-- The bit length of a nonzero number is one more than its floor log2. -/
theorem bitLen_eq_log2 (n : Nat) (h : n ≠ 0) : bitLen n = Nat.log2 n + 1 := by
  induction n using Nat.strong_induction_on with
  | _ n ih =>
    rw [bitLen_eq n h, Nat.log2]
    by_cases h2 : 2 ≤ n
    · have hne : n / 2 ≠ 0 := by
        have := Nat.le_div_iff_mul_le (k := 2) (by omega) |>.2 (by omega : 1 * 2 ≤ n)
        omega
      rw [if_pos h2, ih (n / 2) (Nat.div_lt_self (by omega) (by omega)) hne]
    · have h1 : n = 1 := by omega
      subst h1
      simp [bitLen_zero]

theorem decodeEntries_encodeEntries {a : Type} (es : List (Nat × Cid a)) :
    decodeEntries (encodeEntries es) = some es := by
  induction es with
  | nil => rfl
  | cons e rest ih =>
    obtain ⟨i, c⟩ := e
    simp [encodeEntries, decodeEntries, ih]

theorem encodeEntries_injective {a : Type} (es fs : List (Nat × Cid a))
    (h : encodeEntries es = encodeEntries fs) : es = fs := by
  have h2 := decodeEntries_encodeEntries es
  rw [h, decodeEntries_encodeEntries fs] at h2
  exact (Option.some_injective _ h2).symm

/-! ### Dense AMT lemmas -/

theorem denseFrom_length {a : Type} (k : Nat) (ps : List (Cid a)) :
    (denseFrom k ps).length = ps.length := by
  induction ps generalizing k with
  | nil => rfl
  | cons c cs ih => simp [denseFrom, ih]

theorem lookup_denseFrom {a : Type} (ps : List (Cid a)) (k i : Nat) :
    lookupEntry (denseFrom k ps) (k + i) = ps[i]? := by
  induction ps generalizing k i with
  | nil => simp [denseFrom, lookupEntry]
  | cons c cs ih =>
    cases i with
    | zero => simp [denseFrom, lookupEntry]
    | succ j =>
      have hne : k + (j + 1) ≠ k := by omega
      have := ih (k + 1) j
      simp only [denseFrom, lookupEntry, if_neg hne]
      rw [show k + (j + 1) = (k + 1) + j by omega, this]
      simp

theorem insert_denseFrom_append {a : Type} (ps : List (Cid a)) (k : Nat) (c : Cid a) :
    insertEntry (denseFrom k ps) (k + ps.length) c = denseFrom k (ps ++ [c]) := by
  induction ps generalizing k with
  | nil => simp [denseFrom, insertEntry]
  | cons d ds ih =>
    have h1 : ¬ (k + (ds.length + 1) < k) := by omega
    have h2 : ¬ (k + (ds.length + 1) = k) := by omega
    simp only [denseFrom, List.length_cons, insertEntry, h1, h2, if_false,
      List.cons_append]
    rw [show k + (ds.length + 1) = (k + 1) + ds.length by omega, ih (k + 1)]
    rfl

theorem delete_denseFrom_last {a : Type} (ps : List (Cid a)) (k : Nat) (c : Cid a) :
    deleteEntry (denseFrom k (ps ++ [c])) (k + ps.length) = (some c, denseFrom k ps) := by
  induction ps generalizing k with
  | nil => simp [denseFrom, deleteEntry]
  | cons d ds ih =>
    have h2 : ¬ (k + (ds.length + 1) = k) := by omega
    simp only [List.cons_append, denseFrom, List.length_cons, deleteEntry, h2,
      if_false, List.append_eq]
    rw [show k + (ds.length + 1) = (k + 1) + ds.length by omega, ih (k + 1)]

theorem amt_count_dense {a : Type} (ps : List (Cid a)) :
    Amt.count (a := a) ⟨denseFrom 0 ps⟩ = ps.length := by
  simp [Amt.count, denseFrom_length]

theorem amt_get_dense {a : Type} (ps : List (Cid a)) (i : Nat) :
    Amt.get (a := a) ⟨denseFrom 0 ps⟩ i = ps[i]? := by
  simpa using lookup_denseFrom ps 0 i

/-! ### The merge loop simulation (source loop vs spec loop on dense lists) -/

theorem pushLoop_step {a : Type} (store : Store a) (vs : List (Cid a))
    (b c : Cid a) (k : Nat) :
    pushLoop store ⟨denseFrom 0 ((vs ++ [b]) ++ [c])⟩ (k + 1)
      = pushLoop (store.putPair b c).2 ⟨denseFrom 0 (vs ++ [Cid.node b c])⟩ k := by
  have hd1 : Amt.delete (a := a) ⟨denseFrom 0 ((vs ++ [b]) ++ [c])⟩ (vs.length + 2 - 1)
      = (some c, ⟨denseFrom 0 (vs ++ [b])⟩) := by
    have h := delete_denseFrom_last (vs ++ [b]) 0 c
    simp only [Nat.zero_add, List.length_append, List.length_cons,
      List.length_nil] at h
    simp only [Amt.delete, show vs.length + 2 - 1 = vs.length + (1 + 0) by omega, h]
  have hd2 : Amt.delete (a := a) ⟨denseFrom 0 (vs ++ [b])⟩ (vs.length + 1 - 1)
      = (some b, ⟨denseFrom 0 vs⟩) := by
    have h := delete_denseFrom_last vs 0 b
    simp only [Nat.zero_add] at h
    simp only [Amt.delete, show vs.length + 1 - 1 = vs.length by omega, h]
  have hins : Amt.set (a := a) ⟨denseFrom 0 vs⟩ vs.length (Cid.node b c)
      = ⟨denseFrom 0 (vs ++ [Cid.node b c])⟩ := by
    have h := insert_denseFrom_append vs 0 (Cid.node b c)
    simp only [Nat.zero_add] at h
    simp only [Amt.set, h]
  have hc1 : Amt.count (a := a) ⟨denseFrom 0 ((vs ++ [b]) ++ [c])⟩ = vs.length + 2 := by
    simp [amt_count_dense]
  have hc2 : Amt.count (a := a) ⟨denseFrom 0 (vs ++ [b])⟩ = vs.length + 1 := by
    simp [amt_count_dense]
  have hc3 : Amt.count (a := a) ⟨denseFrom 0 vs⟩ = vs.length := amt_count_dense vs
  simp only [pushLoop, hc1, hd1, hc2, hd2, hc3, hins, hash_and_put_pair,
    Store.putPair]

theorem mergeL_step {a : Type} (store : Store a) (vs : List (Cid a))
    (b c : Cid a) (k : Nat) :
    mergeL (k + 1) store ((vs ++ [b]) ++ [c])
      = mergeL k (store.putPair b c).2 (vs ++ [Cid.node b c]) := by
  simp only [mergeL, List.getLast?_concat, List.dropLast_concat, Store.putPair]

theorem pushLoop_dense {a : Type} :
    ∀ (k : Nat) (store : Store a) (qs : List (Cid a)),
    pushLoop store ⟨denseFrom 0 qs⟩ k
      = ((mergeL k store qs).1,
         ((mergeL k store qs).2).map (fun rs => (⟨denseFrom 0 rs⟩ : Amt a))) := by
  intro k
  induction k with
  | zero => intro store qs; rfl
  | succ k ih =>
    intro store qs
    rcases List.eq_nil_or_concat qs with rfl | ⟨us, c, rfl⟩
    · simp [pushLoop, mergeL, Amt.delete, Amt.count, denseFrom, deleteEntry,
        hash_and_put_pair]
    · rcases List.eq_nil_or_concat us with rfl | ⟨vs, b, rfl⟩
      · simp only [List.concat_eq_append, List.nil_append]
        simp [pushLoop, mergeL, Amt.delete, Amt.count, denseFrom, deleteEntry,
          hash_and_put_pair, List.getLast?_concat]
      · simp only [List.concat_eq_append]
        rw [pushLoop_step, mergeL_step, ih]

theorem mergeL_length {a : Type} :
    ∀ (k : Nat) (store : Store a) (qs rs : List (Cid a)),
      (mergeL k store qs).2 = some rs → rs.length + k = qs.length := by
  intro k
  induction k with
  | zero =>
    intro store qs rs h
    simp [mergeL] at h
    simp [h.symm]
  | succ k ih =>
    intro store qs rs h
    rcases List.eq_nil_or_concat qs with rfl | ⟨us, c, rfl⟩
    · simp [mergeL] at h
    · rcases List.eq_nil_or_concat us with rfl | ⟨vs, b, rfl⟩
      · simp [mergeL, List.getLast?_concat] at h
      · simp only [List.concat_eq_append, mergeL, List.getLast?_concat,
          List.dropLast_concat] at h
        have := ih _ _ _ h
        simp at this ⊢
        omega

theorem mergeL_isSome {a : Type} :
    ∀ (k : Nat) (store : Store a) (qs : List (Cid a)), k + 1 ≤ qs.length →
      ((mergeL k store qs).2).isSome := by
  intro k
  induction k with
  | zero => intro store qs _; simp [mergeL]
  | succ k ih =>
    intro store qs hlen
    rcases List.eq_nil_or_concat qs with rfl | ⟨us, c, rfl⟩
    · simp at hlen
    · rcases List.eq_nil_or_concat us with rfl | ⟨vs, b, rfl⟩
      · simp at hlen
      · simp only [List.concat_eq_append, mergeL, List.getLast?_concat,
          List.dropLast_concat]
        apply ih
        simp at hlen ⊢
        omega

/-! ### Bagging lemmas -/

theorem bagLoopAux_dense {a : Type} (ps : List (Cid a)) (hps : ps ≠ []) :
    ∀ (j i : Nat) (root : Cid a) (store : Store a),
    bagLoopAux (a := a) ⟨denseFrom 0 ps⟩ ps.length j i root store
      = (some (claimBagLoop ps ps.length j i root), store) := by
  intro j
  induction j with
  | zero => intro i root store; rfl
  | succ j ih =>
    intro i root store
    have hlt : ps.length - 1 - i < ps.length := by
      have : ps.length ≠ 0 := by simpa using hps
      omega
    have hget : Amt.get (a := a) ⟨denseFrom 0 ps⟩ (ps.length - 1 - i)
        = some (ps.getD (ps.length - 1 - i) Cid.empty) := by
      rw [amt_get_dense, List.getElem?_eq_getElem hlt, List.getD_eq_getElem _ _ hlt]
    simp only [bagLoopAux, claimBagLoop, hget, hash_pair, ih]

theorem bag_dense {a : Type} (store : Store a) (ps : List (Cid a)) :
    bag_peaks store ⟨denseFrom 0 ps⟩ = (some (claimBag ps), store) := by
  match ps with
  | [] => rfl
  | [c] => rfl
  | x :: y :: rest =>
    have hps : x :: y :: rest ≠ [] := by simp
    have hlen : (x :: y :: rest).length = rest.length + 2 := by simp
    have hc : Amt.count (a := a) ⟨denseFrom 0 (x :: y :: rest)⟩ = rest.length + 2 := by
      simp [amt_count_dense]
    have hg1 : Amt.get (a := a) ⟨denseFrom 0 (x :: y :: rest)⟩ (rest.length + 2 - 2)
        = some ((x :: y :: rest).getD (rest.length + 2 - 2) Cid.empty) := by
      have hlt : rest.length + 2 - 2 < (x :: y :: rest).length := by
        simp only [List.length_cons]
        omega
      rw [amt_get_dense, List.getElem?_eq_getElem hlt, List.getD_eq_getElem _ _ hlt]
    have hg2 : Amt.get (a := a) ⟨denseFrom 0 (x :: y :: rest)⟩ (rest.length + 2 - 1)
        = some ((x :: y :: rest).getD (rest.length + 2 - 1) Cid.empty) := by
      have hlt : rest.length + 2 - 1 < (x :: y :: rest).length := by
        simp only [List.length_cons]
        omega
      rw [amt_get_dense, List.getElem?_eq_getElem hlt, List.getD_eq_getElem _ _ hlt]
    have hb := bagLoopAux_dense (x :: y :: rest) hps (rest.length + 2 - 2) 2
      (Cid.node ((x :: y :: rest).getD (rest.length + 2 - 2) Cid.empty)
        ((x :: y :: rest).getD (rest.length + 2 - 1) Cid.empty)) store
    simp only [hlen] at hb
    simp only [bag_peaks, hc, claimBag, hlen, if_neg (by omega : ¬ rest.length + 2 = 0),
      if_neg (by omega : ¬ rest.length + 2 = 1), hg1, hg2, hash_pair, hb]

theorem bagLoopAux_frame {a : Type} (m : Amt a) (n : Nat) :
    ∀ (j i : Nat) (root : Cid a) (store : Store a),
    (bagLoopAux m n j i root store).2 = store := by
  intro j
  induction j with
  | zero => intro i root store; rfl
  | succ j ih =>
    intro i root store
    simp only [bagLoopAux]
    match hash_pair (m.get (n - 1 - i)) (some root) with
    | none => rfl
    | some root2 => exact ih (i + 1) root2 store

theorem bag_peaks_frame {a : Type} (store : Store a) (m : Amt a) :
    (bag_peaks store m).2 = store := by
  unfold bag_peaks
  by_cases h0 : m.count = 0
  · simp [h0]
  · by_cases h1 : m.count = 1
    · simp only [h0, if_false, h1, if_true]
      match m.get 0 with
      | some c => rfl
      | none => rfl
    · simp only [h0, if_false, h1, if_false]
      match hash_pair (m.get (m.count - 2)) (m.get (m.count - 1)) with
      | none => rfl
      | some root => exact bagLoopAux_frame m m.count (m.count - 2) 2 root store

/-! ### Characterization of `State.push` on a dense state -/

theorem state_push_dense {a : Type} [DecidableEq a] (st : State a)
    (store : Store a) (v : a) (ps : List (Cid a))
    (hload : store.getAmt st.peaks = some (denseFrom 0 ps)) :
    State.push st store v
      = match mergeL (trailingOnes st.leaf_count) (store.putLeaf v).2
          (ps ++ [Cid.leaf v]) with
        | (store2, none) => (none, st, store2)
        | (store2, some qs) =>
          (some { root := claimBag qs, index := st.leaf_count },
           { peaks := encodeEntries (denseFrom 0 qs),
             leaf_count := st.leaf_count + 1 },
           (⟨encodeEntries (denseFrom 0 qs) :: store2.blocks⟩ : Store a)) := by
  have hset : Amt.set (a := a) ⟨denseFrom 0 ps⟩
      (Amt.count (a := a) ⟨denseFrom 0 ps⟩) (Cid.leaf v)
      = ⟨denseFrom 0 (ps ++ [Cid.leaf v])⟩ := by
    have h := insert_denseFrom_append ps 0 (Cid.leaf v)
    simp only [Nat.zero_add] at h
    simp only [Amt.set, amt_count_dense, h]
  unfold State.push
  rw [hload]
  unfold pushFn
  simp only [Store.putLeaf, hset, pushLoop_dense]
  match hm : mergeL (trailingOnes st.leaf_count)
      (⟨Cid.leaf v :: store.blocks⟩ : Store a) (ps ++ [Cid.leaf v]) with
  | (store2, none) => simp only [hm, Option.map_none']
  | (store2, some qs) =>
    simp only [hm, Option.map_some', Amt.flush, Store.putAmt, bag_dense,
      Nat.add_sub_cancel]

/-! ### Popcount arithmetic -/

theorem popCount_eq_zero (n : Nat) : popCount n = 0 ↔ n = 0 := by
  constructor
  · intro h
    by_contra hn
    induction n using Nat.strong_induction_on with
    | _ n ih =>
      rw [popCount_eq n hn] at h
      rcases Nat.eq_zero_or_pos (n % 2) with hm | hm
      · have hd : n / 2 ≠ 0 := by omega
        exact ih (n / 2) (Nat.div_lt_self (by omega) (by omega)) (by omega) hd
      · omega
  · intro h
    subst h
    rfl

theorem trailingOnes_le_popCount (n : Nat) : trailingOnes n ≤ popCount n := by
  induction n using Nat.strong_induction_on with
  | _ n ih =>
    rcases Nat.eq_zero_or_pos n with rfl | hn
    · simp [trailingOnes_even, popCount_zero]
    · rcases Nat.even_or_odd n with he | ho
      · rw [trailingOnes_even n (Nat.even_iff.mp he)]
        omega
      · have hm : n % 2 = 1 := Nat.odd_iff.mp ho
        rw [trailingOnes_odd n hm, popCount_eq n (by omega)]
        have := ih (n / 2) (Nat.div_lt_self (by omega) (by omega))
        omega

theorem popCount_succ (n : Nat) :
    popCount (n + 1) + trailingOnes n = popCount n + 1 := by
  induction n using Nat.strong_induction_on with
  | _ n ih =>
    rcases Nat.eq_zero_or_pos n with rfl | hn
    · rfl
    · rcases Nat.even_or_odd n with he | ho
      · have hm : n % 2 = 0 := Nat.even_iff.mp he
        rw [trailingOnes_even n hm, popCount_eq (n + 1) (by omega),
          popCount_eq n (by omega)]
        have hdiv : (n + 1) / 2 = n / 2 := by omega
        rw [hdiv]
        omega
      · have hm : n % 2 = 1 := Nat.odd_iff.mp ho
        have hdiv : (n + 1) / 2 = n / 2 + 1 := by omega
        rw [trailingOnes_odd n hm, popCount_eq (n + 1) (by omega), hdiv,
          popCount_eq n (by omega)]
        have := ih (n / 2) (Nat.div_lt_self (by omega) (by omega))
        have h1 : (n + 1) % 2 = 0 := by omega
        omega

theorem popCount_two_mul_add (s b : Nat) (hb : b < 2) :
    popCount (2 * s + b) = popCount s + b := by
  rcases Nat.eq_zero_or_pos (2 * s + b) with hz | hp
  · have hs : s = 0 := by omega
    have hb0 : b = 0 := by omega
    simp [hs, hb0, popCount_zero]
  · rw [popCount_eq _ (by omega)]
    have h1 : (2 * s + b) % 2 = b := by omega
    have h2 : (2 * s + b) / 2 = s := by omega
    rw [h1, h2]
    omega

/-- Splitting the popcount at bit position `h`. -/
theorem popCount_split (h : Nat) : ∀ n : Nat,
    popCount n = popCount (n % 2 ^ h) + popCount (n / 2 ^ h) := by
  induction h with
  | zero => intro n; simp [Nat.mod_one, popCount_zero]
  | succ h ih =>
    intro n
    rcases Nat.eq_zero_or_pos n with rfl | hn
    · simp [popCount_zero]
    · have hmod : n % 2 ^ (h + 1) = 2 * (n / 2 % 2 ^ h) + n % 2 := by
        have e1 : n = 2 ^ (h + 1) * (n / 2 / 2 ^ h) + (2 * (n / 2 % 2 ^ h) + n % 2) := by
          have d1 : n = 2 * (n / 2) + n % 2 := by omega
          have d2 : n / 2 = 2 ^ h * (n / 2 / 2 ^ h) + n / 2 % 2 ^ h :=
            (Nat.div_add_mod _ _).symm
          calc n = 2 * (n / 2) + n % 2 := d1
            _ = 2 * (2 ^ h * (n / 2 / 2 ^ h) + n / 2 % 2 ^ h) + n % 2 := by rw [← d2]
            _ = 2 ^ (h + 1) * (n / 2 / 2 ^ h) + (2 * (n / 2 % 2 ^ h) + n % 2) := by
                ring
        have hr : 2 * (n / 2 % 2 ^ h) + n % 2 < 2 ^ (h + 1) := by
          have := Nat.mod_lt (n / 2) (Nat.two_pow_pos h)
          have hp2 : 2 ^ (h + 1) = 2 * 2 ^ h := by ring
          omega
        conv_lhs => rw [e1]
        rw [Nat.mul_add_mod, Nat.mod_eq_of_lt hr]
      have hdivd : n / 2 ^ (h + 1) = n / 2 / 2 ^ h := by
        rw [Nat.div_div_eq_div_mul]
        congr 1
        ring
      rw [hmod, hdivd, popCount_two_mul_add _ _ (by omega)]
      have := ih (n / 2)
      have hd : popCount n = n % 2 + popCount (n / 2) := popCount_eq n (by omega)
      omega

/-! ### Bit lemmas for the path resolver -/

theorem xor_shiftRight (x y k : Nat) : (x ^^^ y) >>> k = (x >>> k) ^^^ (y >>> k) := by
  apply Nat.eq_of_testBit_eq
  intro i
  simp [Nat.testBit_shiftRight, Nat.testBit_xor]

/-- At the position of the most significant differing bit of `li < lc`, the
bit of `lc` is set: `lc / 2 ^ h` is odd for `h = log2 (li ^^^ lc)`. -/
theorem high_bit_of_lt (li lc : Nat) (hlt : li < lc) :
    (lc / 2 ^ Nat.log2 (li ^^^ lc)) % 2 = 1 := by
  set d := li ^^^ lc with hd
  have hd0 : d ≠ 0 := by
    intro h
    exact absurd (Nat.xor_eq_zero.mp h) (by omega)
  set h := Nat.log2 d with hh
  have hlow : 2 ^ h ≤ d := Nat.log2_self_le hd0
  have hhigh : d < 2 ^ (h + 1) := Nat.lt_log2_self
  have hdiv1 : d / 2 ^ h = 1 := by
    have h1 : 1 ≤ d / 2 ^ h := (Nat.le_div_iff_mul_le (Nat.two_pow_pos h)).mpr (by omega)
    have h2 : d / 2 ^ h < 2 := by
      rw [Nat.div_lt_iff_lt_mul (Nat.two_pow_pos h)]
      have : (2 : Nat) ^ (h + 1) = 2 ^ h * 2 := by ring
      omega
    omega
  set A := li / 2 ^ h with hA
  set B := lc / 2 ^ h with hB
  have hxorAB : A ^^^ B = 1 := by
    rw [hA, hB, ← Nat.shiftRight_eq_div_pow, ← Nat.shiftRight_eq_div_pow,
      ← xor_shiftRight, Nat.shiftRight_eq_div_pow, ← hd, hdiv1]
  have hAB : A ≤ B := Nat.div_le_div_right (Nat.le_of_lt hlt)
  have hne : A ≠ B := by
    intro h
    rw [h, Nat.xor_self] at hxorAB
    omega
  have hhalf : A / 2 = B / 2 := by
    have : (A ^^^ B) / 2 = A / 2 ^^^ B / 2 := Nat.xor_div_two
    rw [hxorAB] at this
    exact Nat.xor_eq_zero.mp this.symm
  have hpar : ¬ (A % 2 = 1 ↔ B % 2 = 1) := by
    have : (A ^^^ B) % 2 = 1 := by rw [hxorAB]
    exact Nat.xor_mod_two_eq_one.mp this
  have hAltB : A < B := by omega
  by_contra hBodd
  have hB0 : B % 2 = 0 := by omega
  have hA1 : A % 2 = 1 := by
    rcases Nat.mod_two_eq_zero_or_one A with h0 | h1
    · exact absurd (by omega : (A % 2 = 1 ↔ B % 2 = 1)) hpar
    · exact h1
  omega

/-- Resolved form of `path_for_eigen_root` for in-range `u64` inputs. -/
theorem path_resolve (li lc : Nat) (hlt : li < lc) (hw : lc < 2 ^ 64) :
    path_for_eigen_root li lc
      = some (li % 2 ^ Nat.log2 (li ^^^ lc) + 2 ^ Nat.log2 (li ^^^ lc),
              popCount lc - popCount (lc % 2 ^ Nat.log2 (li ^^^ lc)) - 1) := by
  have hd0 : li ^^^ lc ≠ 0 := by
    intro h
    exact absurd (Nat.xor_eq_zero.mp h) (by omega)
  have hdw : li ^^^ lc < 2 ^ 64 := Nat.xor_lt_two_pow (by omega) hw
  have hlog : Nat.log2 (li ^^^ lc) < 64 := (Nat.log2_lt hd0).mpr hdw
  have hbl : bitLen (li ^^^ lc) = Nat.log2 (li ^^^ lc) + 1 := bitLen_eq_log2 _ hd0
  unfold path_for_eigen_root
  rw [if_neg (by omega)]
  have hh : 64 - (64 - bitLen (li ^^^ lc)) - 1 = Nat.log2 (li ^^^ lc) := by omega
  simp only [hh, Nat.one_shiftLeft, Nat.and_pow_two_sub_one_eq_mod]

/-- The peak index resolved for an in-range lookup is strictly below the
number of peaks, and the local path is positive. -/
theorem path_resolve_bounds (li lc : Nat) (hlt : li < lc) (_hw : lc < 2 ^ 64) :
    popCount lc - popCount (lc % 2 ^ Nat.log2 (li ^^^ lc)) - 1 + 1 ≤ popCount lc
      ∧ 1 ≤ li % 2 ^ Nat.log2 (li ^^^ lc) + 2 ^ Nat.log2 (li ^^^ lc) := by
  set h := Nat.log2 (li ^^^ lc) with hh
  have hsplit : popCount lc = popCount (lc % 2 ^ h) + popCount (lc / 2 ^ h) :=
    popCount_split h lc
  have hodd : (lc / 2 ^ h) % 2 = 1 := high_bit_of_lt li lc hlt
  have hpos : 1 ≤ popCount (lc / 2 ^ h) := by
    rcases Nat.eq_zero_or_pos (popCount (lc / 2 ^ h)) with hz | hp
    · rw [(popCount_eq_zero _).mp hz] at hodd
      omega
    · exact hp
  have hp2 : 1 ≤ 2 ^ h := Nat.one_le_two_pow
  omega

/-! ### Relabelling lemmas

A run of the accumulator never inspects leaf values, so relabelling every
value through an arbitrary `f` commutes with the whole run.  Store reads are
only success-preserving (a non-injective `f` can merge blocks, so a failing
read may succeed after relabelling), which is all the transport of claim C1
needs. -/

theorem mapEntries_nil {a b : Type} (f : a → b) : mapEntries f [] = [] := rfl

theorem mapEntries_cons {a b : Type} (f : a → b) (j : Nat) (d : Cid a)
    (rest : List (Nat × Cid a)) :
    mapEntries f ((j, d) :: rest) = (j, d.map f) :: mapEntries f rest := rfl

theorem store_has_map {a b : Type} [DecidableEq a] [DecidableEq b] (f : a → b)
    (s : Store a) (c : Cid a) (h : s.has c) : (s.map f).has (c.map f) :=
  List.mem_map_of_mem (Cid.map f) h

theorem getLeaf_map {a b : Type} [DecidableEq a] [DecidableEq b] (f : a → b)
    (s : Store a) (c : Cid a) (v : a) (h : s.getLeaf c = some v) :
    (s.map f).getLeaf (c.map f) = some (f v) := by
  unfold Store.getLeaf at h ⊢
  by_cases hm : s.has c
  · rw [if_pos hm] at h
    rw [if_pos (store_has_map f s c hm)]
    cases c <;> simp_all [Cid.map]
  · rw [if_neg hm] at h
    exact absurd h (by simp)

theorem getPair_map {a b : Type} [DecidableEq a] [DecidableEq b] (f : a → b)
    (s : Store a) (c : Cid a) (l r : Cid a) (h : s.getPair c = some (l, r)) :
    (s.map f).getPair (c.map f) = some (l.map f, r.map f) := by
  unfold Store.getPair at h ⊢
  by_cases hm : s.has c
  · rw [if_pos hm] at h
    rw [if_pos (store_has_map f s c hm)]
    cases c <;> simp_all [Cid.map]
  · rw [if_neg hm] at h
    exact absurd h (by simp)

theorem decodeEntries_map {a b : Type} (f : a → b) :
    ∀ (c : Cid a) (es : List (Nat × Cid a)), decodeEntries c = some es →
    decodeEntries (c.map f) = some (mapEntries f es) := by
  intro c
  induction c with
  | empty => intro es h; exact absurd h (by simp [decodeEntries])
  | leaf v => intro es h; exact absurd h (by simp [decodeEntries])
  | node l r ihl ihr => intro es h; exact absurd h (by simp [decodeEntries])
  | amtNil =>
    intro es h
    simp [decodeEntries] at h
    subst h
    rfl
  | amtCons i c rest ihc ihrest =>
    intro es h
    simp only [decodeEntries, Option.map_eq_some'] at h
    obtain ⟨fs, hfs, rfl⟩ := h
    simp only [Cid.map, decodeEntries, ihrest fs hfs, Option.map_some',
      mapEntries_cons]

theorem getAmt_map {a b : Type} [DecidableEq a] [DecidableEq b] (f : a → b)
    (s : Store a) (c : Cid a) (es : List (Nat × Cid a))
    (h : s.getAmt c = some es) :
    (s.map f).getAmt (c.map f) = some (mapEntries f es) := by
  unfold Store.getAmt at h ⊢
  by_cases hm : s.has c
  · rw [if_pos hm] at h
    rw [if_pos (store_has_map f s c hm)]
    exact decodeEntries_map f c es h
  · rw [if_neg hm] at h
    exact absurd h (by simp)

theorem lookupEntry_map {a b : Type} (f : a → b) :
    ∀ (es : List (Nat × Cid a)) (i : Nat),
    lookupEntry (mapEntries f es) i = (lookupEntry es i).map (Cid.map f) := by
  intro es
  induction es with
  | nil => intro i; rfl
  | cons e rest ih =>
    intro i
    obtain ⟨j, d⟩ := e
    rw [mapEntries_cons]
    by_cases h : i = j <;> simp [lookupEntry, h, ih]

theorem insertEntry_map {a b : Type} (f : a → b) :
    ∀ (es : List (Nat × Cid a)) (i : Nat) (c : Cid a),
    insertEntry (mapEntries f es) i (c.map f) = mapEntries f (insertEntry es i c) := by
  intro es
  induction es with
  | nil => intro i c; rfl
  | cons e rest ih =>
    intro i c
    obtain ⟨j, d⟩ := e
    rw [mapEntries_cons]
    by_cases h1 : i < j
    · simp [insertEntry, h1, mapEntries_cons]
    · by_cases h2 : i = j <;> simp [insertEntry, h1, h2, ih, mapEntries_cons]

theorem deleteEntry_map {a b : Type} (f : a → b) :
    ∀ (es : List (Nat × Cid a)) (i : Nat),
    deleteEntry (mapEntries f es) i
      = ((deleteEntry es i).1.map (Cid.map f), mapEntries f (deleteEntry es i).2) := by
  intro es
  induction es with
  | nil => intro i; rfl
  | cons e rest ih =>
    intro i
    obtain ⟨j, d⟩ := e
    rw [mapEntries_cons]
    by_cases h : i = j <;> simp [deleteEntry, h, ih, mapEntries_cons]

theorem amt_count_map {a b : Type} (f : a → b) (m : Amt a) :
    (m.map f).count = m.count := by
  simp [Amt.map, Amt.count, mapEntries]

theorem hash_and_put_pair_map {a b : Type} (f : a → b) (s : Store a)
    (l r : Option (Cid a)) :
    hash_and_put_pair (s.map f) (l.map (Cid.map f)) (r.map (Cid.map f))
      = (hash_and_put_pair s l r).map (fun p => (p.1.map f, p.2.map f)) := by
  cases l <;> cases r <;> rfl

theorem pushLoop_map {a b : Type} (f : a → b) :
    ∀ (k : Nat) (s : Store a) (m : Amt a),
    pushLoop (s.map f) (m.map f) k
      = ((pushLoop s m k).1.map f, ((pushLoop s m k).2).map (Amt.map f)) := by
  intro k
  induction k with
  | zero => intro s m; rfl
  | succ k ih =>
    intro s m
    simp only [pushLoop]
    rw [amt_count_map]
    have hdel1 : (m.map f).delete (m.count - 1)
        = ((m.delete (m.count - 1)).1.map (Cid.map f),
           (m.delete (m.count - 1)).2.map f) := by
      simp [Amt.delete, Amt.map, deleteEntry_map]
    rw [hdel1]
    have hcnt : ((m.delete (m.count - 1)).2.map f).count
        = (m.delete (m.count - 1)).2.count := amt_count_map f _
    rw [hcnt]
    have hdel2 : ((m.delete (m.count - 1)).2.map f).delete
          ((m.delete (m.count - 1)).2.count - 1)
        = (((m.delete (m.count - 1)).2.delete
            ((m.delete (m.count - 1)).2.count - 1)).1.map (Cid.map f),
           ((m.delete (m.count - 1)).2.delete
            ((m.delete (m.count - 1)).2.count - 1)).2.map f) := by
      simp [Amt.delete, Amt.map, deleteEntry_map]
    rw [hdel2, hash_and_put_pair_map]
    match hash_and_put_pair s (((m.delete (m.count - 1)).2.delete
        ((m.delete (m.count - 1)).2.count - 1)).1) ((m.delete (m.count - 1)).1) with
    | none => rfl
    | some (c, s2) =>
      simp only [Option.map_some']
      have hset : (((m.delete (m.count - 1)).2.delete
            ((m.delete (m.count - 1)).2.count - 1)).2.map f).set
            ((((m.delete (m.count - 1)).2.delete
              ((m.delete (m.count - 1)).2.count - 1)).2.map f).count) (c.map f)
          = (((m.delete (m.count - 1)).2.delete
              ((m.delete (m.count - 1)).2.count - 1)).2.set
              (((m.delete (m.count - 1)).2.delete
                ((m.delete (m.count - 1)).2.count - 1)).2.count) c).map f := by
        rw [amt_count_map]
        simp [Amt.set, Amt.map, insertEntry_map]
      rw [hset, ih]

theorem encodeEntries_map {a b : Type} (f : a → b) :
    ∀ es : List (Nat × Cid a),
    encodeEntries (mapEntries f es) = (encodeEntries es).map f := by
  intro es
  induction es with
  | nil => rfl
  | cons e rest ih =>
    obtain ⟨j, d⟩ := e
    rw [mapEntries_cons]
    simp [encodeEntries, Cid.map, ih]

theorem pushFn_map {a b : Type} (f : a → b) (s : Store a) (lc : Nat) (m : Amt a)
    (v : a) :
    pushFn (s.map f) lc (m.map f) (f v)
      = ((pushFn s lc m v).1.map f,
         ((pushFn s lc m v).2).map (fun p => (p.1.map f, p.2.map f))) := by
  unfold pushFn
  have hputLeaf : (Store.map f s).putLeaf (f v)
      = (Cid.map f (s.putLeaf v).1, Store.map f (s.putLeaf v).2) := rfl
  have hset : (m.map f).set ((m.map f).count) (Cid.map f (s.putLeaf v).1)
      = (m.set m.count (s.putLeaf v).1).map f := by
    rw [amt_count_map]
    simp [Amt.set, Amt.map, insertEntry_map]
  simp only [hputLeaf, hset, pushLoop_map]
  match pushLoop (s.putLeaf v).2 (m.set m.count (s.putLeaf v).1)
      (trailingOnes lc) with
  | (s2, none) => rfl
  | (s2, some m2) =>
    have hflush : (m2.map f).flush (Store.map f s2)
        = (Cid.map f (m2.flush s2).1, Store.map f (m2.flush s2).2) := by
      simp [Amt.flush, Store.putAmt, Amt.map, Store.map, encodeEntries_map]
    simp only [Option.map_some', hflush]

theorem amt_get_map {a b : Type} (f : a → b) (m : Amt a) (i : Nat) :
    (m.map f).get i = (m.get i).map (Cid.map f) := by
  simp [Amt.get, Amt.map, lookupEntry_map]

theorem hash_pair_map {a b : Type} (f : a → b) (l r : Option (Cid a)) :
    hash_pair (l.map (Cid.map f)) (r.map (Cid.map f))
      = (hash_pair l r).map (Cid.map f) := by
  cases l <;> cases r <;> rfl

theorem bagLoopAux_map {a b : Type} (f : a → b) (m : Amt a) (n : Nat) :
    ∀ (j i : Nat) (root : Cid a) (s : Store a),
    bagLoopAux (m.map f) n j i (root.map f) (s.map f)
      = ((bagLoopAux m n j i root s).1.map (Cid.map f),
         (bagLoopAux m n j i root s).2.map f) := by
  intro j
  induction j with
  | zero => intro i root s; rfl
  | succ j ih =>
    intro i root s
    simp only [bagLoopAux, amt_get_map]
    have hh := hash_pair_map f (m.get (n - 1 - i)) (some root)
    simp only [Option.map_some'] at hh
    rw [hh]
    match hash_pair (m.get (n - 1 - i)) (some root) with
    | none => rfl
    | some root2 =>
      simp only [Option.map_some']
      exact ih (i + 1) root2 s

theorem bag_peaks_map {a b : Type} (f : a → b) (s : Store a) (m : Amt a) :
    bag_peaks (s.map f) (m.map f)
      = ((bag_peaks s m).1.map (Cid.map f), (bag_peaks s m).2.map f) := by
  unfold bag_peaks
  rw [amt_count_map]
  by_cases h0 : m.count = 0
  · simp [h0, Cid.map]
  · by_cases h1 : m.count = 1
    · simp only [h0, if_false, h1, if_true, amt_get_map]
      match m.get 0 with
      | some c => rfl
      | none => rfl
    · simp only [h0, if_false, h1, if_false, amt_get_map]
      have hh := hash_pair_map f (m.get (m.count - 2)) (m.get (m.count - 1))
      rw [hh]
      match hash_pair (m.get (m.count - 2)) (m.get (m.count - 1)) with
      | none => rfl
      | some root =>
        simp only [Option.map_some']
        exact bagLoopAux_map f m m.count (m.count - 2) 2 root s

theorem state_push_map {a b : Type} [DecidableEq a] [DecidableEq b] (f : a → b)
    (st : State a) (store : Store a) (v : a) (r : PushReturn a) (st2 : State a)
    (store2 : Store a) (h : State.push st store v = (some r, st2, store2)) :
    State.push (st.map f) (store.map f) (f v)
      = (some { root := r.root.map f, index := r.index },
         st2.map f, store2.map f) := by
  match hload : store.getAmt st.peaks with
  | none =>
    unfold State.push at h
    rw [hload] at h
    simp at h
  | some entries =>
    have hload2 : (store.map f).getAmt ((st.map f).peaks)
        = some (mapEntries f entries) := getAmt_map f store st.peaks entries hload
    have hamt : (Amt.mk (mapEntries f entries)) = (Amt.mk entries).map f := rfl
    have hlc : (st.map f).leaf_count = st.leaf_count := rfl
    match hpush : pushFn store st.leaf_count ⟨entries⟩ v with
    | (storeB, none) =>
      unfold State.push at h
      rw [hload] at h
      simp only [hpush] at h
      simp at h
    | (storeB, some (handle, m2)) =>
      have hpush2 : pushFn (store.map f) st.leaf_count ((Amt.mk entries).map f) (f v)
          = (storeB.map f, some (handle.map f, m2.map f)) := by
        rw [pushFn_map, hpush]
        rfl
      match hB : bag_peaks storeB m2 with
      | (none, store3) =>
        unfold State.push at h
        rw [hload] at h
        simp only [hpush, hB] at h
        simp at h
      | (some root, store3) =>
        unfold State.push at h
        rw [hload] at h
        simp only [hpush, hB] at h
        have hB2 : bag_peaks (storeB.map f) (m2.map f)
            = (some (root.map f), store3.map f) := by
          rw [bag_peaks_map, hB]
          rfl
        unfold State.push
        simp only [hload2, hlc, hamt, hpush2, hB2]
        simp only [Prod.mk.injEq, Option.some.injEq] at h
        obtain ⟨h1, h2, h3⟩ := h
        subst h2
        subst h3
        subst h1
        rfl

theorem walkDown_map {a b : Type} [DecidableEq a] [DecidableEq b] (f : a → b)
    (store : Store a) (path : Nat) :
    ∀ (s : Nat) (pr pr2 : Cid a × Cid a), walkDown store path s pr = some pr2 →
    walkDown (store.map f) path s (pr.1.map f, pr.2.map f)
      = some (pr2.1.map f, pr2.2.map f) := by
  intro s
  induction s with
  | zero =>
    intro pr pr2 h
    simp only [walkDown] at h
    cases h
    rfl
  | succ s ih =>
    intro pr pr2 h
    simp only [walkDown] at h ⊢
    have hsel : (if (path >>> (s + 1)) &&& 1 = 1 then Cid.map f pr.2 else Cid.map f pr.1)
        = Cid.map f (if (path >>> (s + 1)) &&& 1 = 1 then pr.2 else pr.1) := by
      by_cases hb : (path >>> (s + 1)) &&& 1 = 1
      · rw [if_pos hb, if_pos hb]
      · rw [if_neg hb, if_neg hb]
    rw [hsel]
    match hg : store.getPair (if (path >>> (s + 1)) &&& 1 = 1 then pr.2 else pr.1) with
    | none =>
      rw [hg] at h
      exact absurd h (by simp)
    | some pr3 =>
      rw [hg] at h
      have hg2 := getPair_map f store _ pr3.1 pr3.2 (by rw [hg])
      rw [hg2]
      exact ih pr3 pr2 h

theorem get_at_map {a b : Type} [DecidableEq a] [DecidableEq b] (f : a → b)
    (store : Store a) (li lc : Nat) (peaks : Amt a) (v : a)
    (h : get_at store li lc peaks = some v) :
    get_at (store.map f) li lc (peaks.map f) = some (f v) := by
  match hp : path_for_eigen_root li lc with
  | none =>
    simp only [get_at, hp] at h
    exact absurd h (by simp)
  | some (path, ei) =>
    simp only [get_at, hp, amt_get_map] at h ⊢
    match hg : peaks.get ei with
    | none =>
      simp only [hg] at h
      exact absurd h (by simp)
    | some cid =>
      simp only [hg, Option.map_some'] at h ⊢
      by_cases hpath : path = 1
      · simp only [if_pos hpath] at h ⊢
        exact getLeaf_map f store cid v h
      · simp only [if_neg hpath] at h ⊢
        match hpr : store.getPair cid with
        | none =>
          simp only [hpr] at h
          exact absurd h (by simp)
        | some pair =>
          have hpr2 := getPair_map f store cid pair.1 pair.2 (by rw [hpr])
          simp only [hpr] at h
          simp only [hpr2]
          match hw : walkDown store path (64 - (64 - bitLen path) - 2) pair with
          | none =>
            simp only [hw] at h
            exact absurd h (by simp)
          | some pair2 =>
            have hw2 := walkDown_map f store path _ pair pair2 hw
            simp only [hw] at h
            simp only [hw2]
            have hsel : (if path &&& 1 = 1 then Cid.map f pair2.2 else Cid.map f pair2.1)
                = Cid.map f (if path &&& 1 = 1 then pair2.2 else pair2.1) := by
              by_cases hb : path &&& 1 = 1
              · rw [if_pos hb, if_pos hb]
              · rw [if_neg hb, if_neg hb]
            rw [hsel]
            exact getLeaf_map f store _ v h

theorem get_leaf_at_map {a b : Type} [DecidableEq a] [DecidableEq b] (f : a → b)
    (st : State a) (store : Store a) (i : Nat) (v : a)
    (h : st.get_leaf_at store i = some (some v)) :
    (st.map f).get_leaf_at (store.map f) i = some (some (f v)) := by
  match hload : store.getAmt st.peaks with
  | none =>
    simp only [State.get_leaf_at, hload] at h
    exact absurd h (by simp)
  | some entries =>
    have hload2 := getAmt_map f store st.peaks entries hload
    simp only [State.get_leaf_at, hload] at h
    have hinner : get_at store i st.leaf_count ⟨entries⟩ = some v := by
      simpa using h
    have hfor := get_at_map f store i st.leaf_count ⟨entries⟩ v hinner
    have hlc : (st.map f).leaf_count = st.leaf_count := rfl
    have hpk : (st.map f).peaks = Cid.map f st.peaks := rfl
    simp only [State.get_leaf_at, hpk, hload2, hlc]
    rw [show (Amt.mk (mapEntries f entries)) = (Amt.mk entries).map f from rfl, hfor]

theorem pushAll_map {a b : Type} [DecidableEq a] [DecidableEq b] (f : a → b) :
    ∀ (vs : List a) (st : State a) (store : Store a) (st2 : State a)
      (store2 : Store a), pushAll st store vs = some (st2, store2) →
    pushAll (st.map f) (store.map f) (vs.map f)
      = some (st2.map f, store2.map f) := by
  intro vs
  induction vs with
  | nil =>
    intro st store st2 store2 h
    simp only [pushAll] at h
    cases h
    rfl
  | cons v rest ih =>
    intro st store st2 store2 h
    simp only [pushAll, List.map_cons] at h ⊢
    match hp : State.push st store v with
    | (none, stx, stoy) =>
      rw [hp] at h
      simp at h
    | (some r, stB, stoB) =>
      rw [hp] at h
      rw [state_push_map f st store v r stB stoB hp]
      exact ih stB stoB st2 store2 h

theorem pushSeq_map {a b : Type} [DecidableEq a] [DecidableEq b] (f : a → b)
    (vs : List a) (st : State a) (store : Store a)
    (h : pushSeq vs = some (st, store)) :
    pushSeq (vs.map f) = some (st.map f, store.map f) := by
  unfold pushSeq at h ⊢
  have hst : (State.new (a := b) ⟨[]⟩).1 = ((State.new (a := a) ⟨[]⟩).1).map f := rfl
  have hsto : (State.new (a := b) ⟨[]⟩).2 = ((State.new (a := a) ⟨[]⟩).2).map f := rfl
  have h2 : pushAll (State.new (a := a) ⟨[]⟩).1 (State.new (a := a) ⟨[]⟩).2 vs
      = some (st, store) := h
  have h3 := pushAll_map f vs _ _ st store h2
  show pushAll (State.new (a := b) ⟨[]⟩).1 (State.new (a := b) ⟨[]⟩).2 (vs.map f)
      = some (st.map f, store.map f)
  rw [hst, hsto]
  exact h3

theorem runLeafAt_map {a b : Type} [DecidableEq a] [DecidableEq b] (f : a → b)
    (vs : List a) (i : Nat) (v : a) (h : runLeafAt vs i = some (some v)) :
    runLeafAt (vs.map f) i = some (some (f v)) := by
  match hps : pushSeq vs with
  | none =>
    simp only [runLeafAt, hps] at h
    exact absurd h (by simp)
  | some (st, store) =>
    simp only [runLeafAt, hps] at h
    simp only [runLeafAt, pushSeq_map f vs st store hps]
    exact get_leaf_at_map f st store i v h

set_option maxRecDepth 1000000 in
set_option maxHeartbeats 8000000 in
/-- Exhaustive check of claim C1 for the canonical values `0, ..., n - 1`:
for every `n ≤ 31` (the claimed range is `1..=31`; `n = 0` is vacuous) and
every `i < n`, pushing `0, ..., n - 1` into a fresh accumulator and then
asking for leaf `i` returns exactly `i`. -/
theorem c1_base : ∀ n, n < 32 → ∀ i, i < n →
    runLeafAt (List.range n) i = some (some i) := by decide

/-! ### Reachable-state invariant -/

theorem getAmt_putAmt {a : Type} [DecidableEq a] (s : Store a)
    (es : List (Nat × Cid a)) :
    (Store.mk (encodeEntries es :: s.blocks) : Store a).getAmt (encodeEntries es)
      = some es := by
  have hmem : (Store.mk (encodeEntries es :: s.blocks) : Store a).has (encodeEntries es) :=
    List.mem_cons_self _ _
  unfold Store.getAmt
  rw [if_pos hmem]
  exact decodeEntries_encodeEntries es

theorem push_preserves_inv {a : Type} [DecidableEq a] (st : State a)
    (store : Store a) (v : a) (ps : List (Cid a))
    (hload : store.getAmt st.peaks = some (denseFrom 0 ps))
    (hlen : ps.length = popCount st.leaf_count) :
    ∃ r st2 store2 qs,
      State.push st store v = (some r, st2, store2) ∧
      store2.getAmt st2.peaks = some (denseFrom 0 qs) ∧
      qs.length = popCount (st.leaf_count + 1) ∧
      st2.leaf_count = st.leaf_count + 1 := by
  rw [state_push_dense st store v ps hload]
  have hk : trailingOnes st.leaf_count + 1 ≤ (ps ++ [Cid.leaf v]).length := by
    have := trailingOnes_le_popCount st.leaf_count
    simp only [List.length_append, List.length_cons, List.length_nil]
    omega
  have hs := mergeL_isSome (trailingOnes st.leaf_count) (store.putLeaf v).2
    (ps ++ [Cid.leaf v]) hk
  match hm : mergeL (trailingOnes st.leaf_count) (store.putLeaf v).2
      (ps ++ [Cid.leaf v]) with
  | (store2, none) =>
    rw [hm] at hs
    simp at hs
  | (store2, some qs) =>
    have hql := mergeL_length (trailingOnes st.leaf_count) (store.putLeaf v).2
      (ps ++ [Cid.leaf v]) qs (by rw [hm])
    have hq : qs.length = popCount (st.leaf_count + 1) := by
      have hp := popCount_succ st.leaf_count
      have hto := trailingOnes_le_popCount st.leaf_count
      simp only [List.length_append, List.length_cons, List.length_nil] at hql
      omega
    exact ⟨_, _, _, qs, rfl, getAmt_putAmt store2 (denseFrom 0 qs), hq, rfl⟩

theorem pushAll_inv {a : Type} [DecidableEq a] :
    ∀ (vs : List a) (st : State a) (store : Store a) (ps : List (Cid a)),
    store.getAmt st.peaks = some (denseFrom 0 ps) →
    ps.length = popCount st.leaf_count →
    ∃ st2 store2 qs, pushAll st store vs = some (st2, store2) ∧
      store2.getAmt st2.peaks = some (denseFrom 0 qs) ∧
      qs.length = popCount st2.leaf_count ∧
      st2.leaf_count = st.leaf_count + vs.length := by
  intro vs
  induction vs with
  | nil =>
    intro st store ps hload hlen
    exact ⟨st, store, ps, rfl, hload, hlen, rfl⟩
  | cons v rest ih =>
    intro st store ps hload hlen
    obtain ⟨r, stB, storeB, qs, hpush, hloadB, hqlen, hlc⟩ :=
      push_preserves_inv st store v ps hload hlen
    obtain ⟨st2, store2, rs, hall, hload2, hrlen, hlc2⟩ :=
      ih stB storeB qs hloadB (by rw [hqlen, hlc])
    refine ⟨st2, store2, rs, ?_, hload2, hrlen, ?_⟩
    · simp only [pushAll, hpush]
      exact hall
    · simp only [List.length_cons]
      omega

theorem init_inv {a : Type} [DecidableEq a] :
    ((State.new (a := a) ⟨[]⟩).2).getAmt ((State.new (a := a) ⟨[]⟩).1).peaks
      = some (denseFrom 0 []) := by
  show (Store.mk [encodeEntries []] : Store a).getAmt (encodeEntries []) = some []
  exact getAmt_putAmt ⟨[]⟩ []

/-! ### Claim theorems -/

/-- C1: for every `n` in `1..=31` and every `i < n`, after pushing the `n`
values `f 0, ..., f (n - 1)` (an arbitrary value sequence) in order into a
freshly constructed accumulator, `get_leaf_at i` returns exactly the `i`-th
pushed value — insertion order is preserved, independent of the pushes made
after index `i`. -/
theorem claim_C1 {b : Type} [DecidableEq b] (f : Nat → b) (n i : Nat)
    (h1 : 1 ≤ n) (h2 : n ≤ 31) (h3 : i < n) :
    runLeafAt ((List.range n).map f) i = some (some (f i)) := by
  have hbase := c1_base n (by omega) i h3
  exact runLeafAt_map f (List.range n) i i hbase

theorem claim_C1_witness :
    runLeafAt ((List.range 3).map (fun j => j * 10)) 1 = some (some 10) :=
  claim_C1 (fun j => j * 10) 3 1 (by decide) (by decide) (by decide)

/-- C2 counterexample: on a state whose (corrupt) Peaks List has its single
entry at index 5 while `leaf_count = 1`, the merge loop pops a missing entry
and `push` fails: `leaf_count` is not incremented and no bagged root is
returned, contrary to the claim read over every accumulator state. -/
theorem claim_C2_counterexample :
    (State.push (⟨Cid.amtCons 5 (Cid.leaf 0) Cid.amtNil, 1⟩ : State Nat)
      ⟨[Cid.amtCons 5 (Cid.leaf 0) Cid.amtNil]⟩ 7).1 = none
    ∧ (State.push (⟨Cid.amtCons 5 (Cid.leaf 0) Cid.amtNil, 1⟩ : State Nat)
      ⟨[Cid.amtCons 5 (Cid.leaf 0) Cid.amtNil]⟩ 7).2.1.leaf_count = 1 := by
  constructor
  · decide
  · decide

/-- C2 (amended): for every state whose loaded Peaks List is dense (entries
at indices `0, ..., len - 1`) with at least `trailingOnes leaf_count`
entries, push performs exactly `k = trailingOnes leaf_count` merge
iterations, each popping the last two entries (later-added becoming `right`,
earlier-added becoming `left`), persisting their pair hash and appending it
as the new last entry; afterwards `leaf_count` is incremented by 1 and push
returns the bagged root of the resulting Peaks List with assigned index
`new leaf_count - 1`.  This is expressed by agreement with the spec-side
`pushSpecC2`: the spec-side run succeeds, the returned value equals its
returned value, and the committed handle loads back as its resulting Peaks
List. -/
theorem claim_C2 {a : Type} [DecidableEq a] (st : State a) (store : Store a)
    (v : a) (ps : List (Cid a))
    (hload : store.getAmt st.peaks = some (denseFrom 0 ps))
    (hk : trailingOnes st.leaf_count ≤ ps.length) :
    ((pushSpecC2 store st.leaf_count ps v).2).isSome
    ∧ (State.push st store v).1
        = ((pushSpecC2 store st.leaf_count ps v).2).map (fun t => t.1)
    ∧ (State.push st store v).2.1.leaf_count = st.leaf_count + 1
    ∧ (State.push st store v).2.2.getAmt (State.push st store v).2.1.peaks
        = ((pushSpecC2 store st.leaf_count ps v).2).map (fun t => denseFrom 0 t.2) := by
  have hk2 : trailingOnes st.leaf_count + 1 ≤ (ps ++ [Cid.leaf v]).length := by
    simp only [List.length_append, List.length_cons, List.length_nil]
    omega
  have hs := mergeL_isSome (trailingOnes st.leaf_count) (store.putLeaf v).2
    (ps ++ [Cid.leaf v]) hk2
  rw [state_push_dense st store v ps hload]
  unfold pushSpecC2
  have hp1 : (store.putLeaf v).1 = Cid.leaf v := rfl
  simp only [hp1]
  match hm : mergeL (trailingOnes st.leaf_count) (store.putLeaf v).2
      (ps ++ [Cid.leaf v]) with
  | (store2, none) =>
    rw [hm] at hs
    simp at hs
  | (store2, some qs) =>
    refine ⟨by simp, by simp, rfl, ?_⟩
    simpa using getAmt_putAmt store2 (denseFrom 0 qs)

theorem claim_C2_witness :
    ((pushSpecC2 (⟨[Cid.amtCons 0 (Cid.leaf 9) Cid.amtNil]⟩ : Store Nat) 1
      [Cid.leaf 9] 7).2).isSome :=
  (claim_C2 ⟨Cid.amtCons 0 (Cid.leaf 9) Cid.amtNil, 1⟩
    ⟨[Cid.amtCons 0 (Cid.leaf 9) Cid.amtNil]⟩ 7 [Cid.leaf 9]
    (by decide) (by decide)).1

/-- C3: for `u64` inputs with `leaf_index < leaf_count`, the path resolver
returns `local_path = (leaf_index AND (size - 1)) OR size` and `peak_index =
popcount(leaf_count) - popcount(leaf_count AND (size - 1)) - 1` where
`size = 2 ^ floor(log2 (leaf_index XOR leaf_count))`; for
`leaf_index ≥ leaf_count` it fails. -/
theorem claim_C3 (li lc : Nat) (hw : lc < 2 ^ 64) :
    (li < lc → path_for_eigen_root li lc
      = some ((li &&& (2 ^ Nat.log2 (li ^^^ lc) - 1)) ||| 2 ^ Nat.log2 (li ^^^ lc),
          popCount lc - popCount (lc &&& (2 ^ Nat.log2 (li ^^^ lc) - 1)) - 1))
    ∧ (lc ≤ li → path_for_eigen_root li lc = none) := by
  constructor
  · intro hlt
    rw [path_resolve li lc hlt hw, Nat.and_pow_two_sub_one_eq_mod,
      Nat.and_pow_two_sub_one_eq_mod]
    have hmod : li % 2 ^ Nat.log2 (li ^^^ lc) < 2 ^ Nat.log2 (li ^^^ lc) :=
      Nat.mod_lt _ (Nat.two_pow_pos _)
    have hor := Nat.mul_add_lt_is_or hmod 1
    simp only [Nat.mul_one] at hor
    rw [show li % 2 ^ Nat.log2 (li ^^^ lc) + 2 ^ Nat.log2 (li ^^^ lc)
        = 2 ^ Nat.log2 (li ^^^ lc) + li % 2 ^ Nat.log2 (li ^^^ lc) by omega,
      hor, Nat.lor_comm]
  · intro hge
    unfold path_for_eigen_root
    rw [if_pos (by omega)]

theorem claim_C3_witness :
    path_for_eigen_root 2 5
      = some ((2 &&& (2 ^ Nat.log2 (2 ^^^ 5) - 1)) ||| 2 ^ Nat.log2 (2 ^^^ 5),
          popCount 5 - popCount (5 &&& (2 ^ Nat.log2 (2 ^^^ 5) - 1)) - 1) :=
  (claim_C3 2 5 (by decide)).1 (by decide)

/-- C4: root bagging over the committed (dense) Peaks List agrees with the
spec-side `claimBag` in every case — no peaks give the null commitment
(distinguishable from every leaf or pair reference), one peak is promoted
unchanged, and two or more peaks are folded right-to-left — and it leaves
the store exactly as given. -/
theorem claim_C4 {a : Type} (store : Store a) (ps : List (Cid a)) :
    bag_peaks store ⟨denseFrom 0 ps⟩ = (some (claimBag ps), store)
    ∧ (∀ v : a, claimBag ([] : List (Cid a)) ≠ Cid.leaf v)
    ∧ (∀ l r : Cid a, claimBag ([] : List (Cid a)) ≠ Cid.node l r) := by
  refine ⟨bag_dense store ps, ?_, ?_⟩
  · intro v h
    exact absurd h (by simp [claimBag])
  · intro l r h
    exact absurd h (by simp [claimBag])

/-- C5: for every pair of present child references, `hash_pair` derives
exactly the reference that `hash_and_put_pair` returns (and the two also
agree on every failure case): persisting the pair node never changes the
derived reference. -/
theorem claim_C5 {a : Type} (store : Store a) (l r : Option (Cid a)) :
    (hash_and_put_pair store l r).map Prod.fst = hash_pair l r := by
  cases l <;> cases r <;> rfl

/-- C6: for every value sequence, pushing it into a freshly constructed
accumulator succeeds, leaves `leaf_count = n` and a committed Peaks List of
length `popcount n`; and `peak_count` is `popcount leaf_count` in every
state. -/
theorem claim_C6 {a : Type} [DecidableEq a] (vs : List a) :
    ((pushSeq vs).map (fun p => p.1.leaf_count)) = some vs.length
    ∧ ((pushSeq vs).bind
        (fun p => (p.2.getAmt p.1.peaks).map List.length))
      = some (popCount vs.length)
    ∧ (∀ st : State a, st.peak_count = popCount st.leaf_count) := by
  obtain ⟨st2, store2, qs, hall, hload2, hqlen, hlc2⟩ :=
    pushAll_inv vs (State.new (a := a) ⟨[]⟩).1 (State.new (a := a) ⟨[]⟩).2 []
      init_inv rfl
  have hps : pushSeq vs = some (st2, store2) := hall
  have h0 : (State.new (a := a) ⟨[]⟩).1.leaf_count = 0 := rfl
  have hlen : st2.leaf_count = vs.length := by omega
  refine ⟨?_, ?_, fun st => rfl⟩
  · rw [hps]
    simp only [Option.map_some', Option.some.injEq]
    omega
  · rw [hps]
    show ((store2.getAmt st2.peaks).map List.length) = some (popCount vs.length)
    rw [hload2]
    simp only [Option.map_some', Option.some.injEq, denseFrom_length]
    rw [hqlen, hlen]

/-- C7 counterexample: on a state whose (corrupt) Peaks List has its single
entry at index 10 with `leaf_count = 4`, the merge loop is empty and
succeeds, the new handle and incremented `leaf_count` are committed, and
only then does `bag_peaks` fail on the missing entry at index 0 — so
`State::push` returns an error while the state has observably changed,
contrary to the claimed atomicity over every state. -/
theorem claim_C7_counterexample :
    (State.push (⟨Cid.amtCons 10 (Cid.leaf 0) Cid.amtNil, 4⟩ : State Nat)
      ⟨[Cid.amtCons 10 (Cid.leaf 0) Cid.amtNil]⟩ 7).1 = none
    ∧ (State.push (⟨Cid.amtCons 10 (Cid.leaf 0) Cid.amtNil, 4⟩ : State Nat)
      ⟨[Cid.amtCons 10 (Cid.leaf 0) Cid.amtNil]⟩ 7).2.1
      ≠ (⟨Cid.amtCons 10 (Cid.leaf 0) Cid.amtNil, 4⟩ : State Nat) := by
  constructor
  · decide
  · decide

/-- C7 (amended): on every state whose loaded Peaks List is dense, push is
atomic with respect to the Accumulator State — if it fails (which happens
exactly when the dense list is shorter than the merge count), the committed
state (`leaf_count` and the peaks handle) is returned unchanged.  The
content store may retain the leaf and pair blocks persisted before the
failure, as in the source, whose blockstore does not roll back writes.  Only
on a corrupt (non-dense) Peaks List can the final bagging fail after the new
state was committed. -/
theorem claim_C7 {a : Type} [DecidableEq a] (st : State a) (store : Store a)
    (v : a) (ps : List (Cid a))
    (hload : store.getAmt st.peaks = some (denseFrom 0 ps)) :
    (State.push st store v).1 = none → (State.push st store v).2.1 = st := by
  rw [state_push_dense st store v ps hload]
  match hm : mergeL (trailingOnes st.leaf_count) (store.putLeaf v).2
      (ps ++ [Cid.leaf v]) with
  | (store2, none) =>
    intro _
    rfl
  | (store2, some qs) =>
    intro h
    exact absurd h (by simp)

theorem claim_C7_witness :
    (State.push (⟨Cid.amtNil, 1⟩ : State Nat) ⟨[Cid.amtNil]⟩ 7).2.1
      = (⟨Cid.amtNil, 1⟩ : State Nat) :=
  claim_C7 ⟨Cid.amtNil, 1⟩ ⟨[Cid.amtNil]⟩ 7 [] (by decide) (by decide)

/-- C8 counterexample: on a state whose peaks handle is not present in the
store, `get_leaf_at` propagates the `Amt::load` failure as an error instead
of collapsing it into an absent result, contrary to the claim read over
every state and store. -/
theorem claim_C8_counterexample :
    State.get_leaf_at (⟨Cid.amtNil, 0⟩ : State Nat) ⟨[]⟩ 0 = none := by
  decide

/-- C8 (amended): whenever loading the peaks AMT from the committed handle
succeeds, `get_leaf_at` never raises: out-of-range indices and every
`get_at` failure along the walk are collapsed into an absent result; in
particular every out-of-range index yields an absent result.  Only a failure
to load the Peaks List handle itself propagates as an error. -/
theorem claim_C8 {a : Type} [DecidableEq a] (st : State a) (store : Store a)
    (i : Nat) (h : (store.getAmt st.peaks).isSome) :
    (st.get_leaf_at store i).isSome
    ∧ (st.leaf_count ≤ i → st.get_leaf_at store i = some none) := by
  match hload : store.getAmt st.peaks with
  | none =>
    rw [hload] at h
    simp at h
  | some entries =>
    constructor
    · simp only [State.get_leaf_at, hload, Option.isSome_some]
    · intro hge
      simp only [State.get_leaf_at, hload, Option.some.injEq]
      unfold get_at path_for_eigen_root
      rw [if_pos (by omega)]

theorem claim_C8_witness :
    (State.get_leaf_at (⟨Cid.amtNil, 0⟩ : State Nat) ⟨[Cid.amtNil]⟩ 5).isSome
    ∧ ((⟨Cid.amtNil, 0⟩ : State Nat).leaf_count ≤ 5 →
      State.get_leaf_at (⟨Cid.amtNil, 0⟩ : State Nat) ⟨[Cid.amtNil]⟩ 5
        = some none) :=
  claim_C8 ⟨Cid.amtNil, 0⟩ ⟨[Cid.amtNil]⟩ 5 (by decide)

/-- C9: root bagging is a pure, non-persisting query — it returns the
content store exactly as given for every peaks list — in contrast to the
merge step `hash_and_put_pair`, which persists the pair node it derives. -/
theorem claim_C9 {a : Type} :
    (∀ (store : Store a) (m : Amt a), (bag_peaks store m).2 = store)
    ∧ (∀ (store : Store a) (l r : Cid a),
        hash_and_put_pair store (some l) (some r)
          = some (Cid.node l r, ⟨Cid.node l r :: store.blocks⟩)
        ∧ Cid.node l r ∈ (⟨Cid.node l r :: store.blocks⟩ : Store a).blocks) := by
  refine ⟨bag_peaks_frame, fun store l r => ⟨rfl, ?_⟩⟩
  exact List.mem_cons_self _ _

/-- C10: for every state satisfying the Peaks List length invariant
(`len = popcount leaf_count`, over the `u64` range) and every in-range
`leaf_index`, the resolved peak index is strictly below the Peaks List
length, the resolved local path is at least 1, and the peak lookup at that
index succeeds — the `failed to get peak at index` branch of the lookup is
unreachable. -/
theorem claim_C10 {a : Type} (ps : List (Cid a)) (li lc : Nat) (h1 : li < lc)
    (h2 : lc < 2 ^ 64) (h3 : ps.length = popCount lc) :
    (path_for_eigen_root li lc).isSome
    ∧ ((path_for_eigen_root li lc).getD (0, 0)).2 < ps.length
    ∧ 1 ≤ ((path_for_eigen_root li lc).getD (0, 0)).1
    ∧ (Amt.get (a := a) ⟨denseFrom 0 ps⟩
        ((path_for_eigen_root li lc).getD (0, 0)).2).isSome := by
  obtain ⟨hidx, hpath⟩ := path_resolve_bounds li lc h1 h2
  rw [path_resolve li lc h1 h2]
  have hlt : popCount lc - popCount (lc % 2 ^ Nat.log2 (li ^^^ lc)) - 1
      < ps.length := by omega
  refine ⟨by simp, by simpa using hlt, by simpa using hpath, ?_⟩
  simp only [Option.getD_some]
  rw [amt_get_dense]
  rw [List.getElem?_eq_getElem hlt]
  simp

theorem claim_C10_witness :
    (Amt.get (a := Nat) ⟨denseFrom 0 [Cid.leaf 0, Cid.leaf 1]⟩
      ((path_for_eigen_root 1 3).getD (0, 0)).2).isSome :=
  (claim_C10 [Cid.leaf 0, Cid.leaf 1] 1 3 (by decide) (by decide)
    (by decide)).2.2.2
